import Mathlib

/- Verification of the record-linkage core of sharepoint_script.py:
   clean_industry_name, extract_info_from_filename, find_matching_company and the
   assignment loop of match_images_to_companies.  Python strings are modelled as
   lists of code points (`Str`); the inputs of interest are ASCII.  The float
   scores of the source are modelled as exact rationals. -/

abbrev Str := List Nat

/-- Python `c.lower()` on one ASCII code point. -/
def lowerC (c : Nat) : Nat := if 65 ≤ c ∧ c ≤ 90 then c + 32 else c

/-- Python `c.upper()` on one ASCII code point. -/
def upperC (c : Nat) : Nat := if 97 ≤ c ∧ c ≤ 122 then c - 32 else c

/-- ASCII whitespace, as stripped by Python `str.strip()` and `str.split()`. -/
def isSpaceC (c : Nat) : Bool := decide (c = 32 ∨ c = 9 ∨ c = 10 ∨ c = 13 ∨ c = 11 ∨ c = 12)

/-- ASCII letter (the character class `[a-zA-Z]`). -/
def isAlphaC (c : Nat) : Bool := decide ((65 ≤ c ∧ c ≤ 90) ∨ (97 ≤ c ∧ c ≤ 122))

/-- ASCII digit (the character class `[0-9]`). -/
def isDigitC (c : Nat) : Bool := decide (48 ≤ c ∧ c ≤ 57)

/-- The character class `[a-zA-Z0-9]` of `re.sub(r'[^a-zA-Z0-9]', '', ...)`. -/
def isAlnumC (c : Nat) : Bool := isAlphaC c || isDigitC c

/-- The regex word-character class `\w`, i.e. `[a-zA-Z0-9_]`. -/
def isWordC (c : Nat) : Bool := isAlnumC c || decide (c = 95)

/-- The character class `[a-z0-9]` of `re.sub(r'[^a-z0-9]', '', ...)`. -/
def isLowAlnumC (c : Nat) : Bool := decide (97 ≤ c ∧ c ≤ 122) || isDigitC c

/-- Python `s.lower()`. -/
def lowerS (s : Str) : Str := s.map lowerC

/-- Python `s.upper()`. -/
def upperS (s : Str) : Str := s.map upperC

/-- Code points of a Lean string literal, for writing concrete inputs. -/
def strL (s : String) : Str := s.data.map Char.toNat

/-- Python `s.strip()`: drop leading and trailing whitespace. -/
def stripS (s : Str) : Str := ((s.dropWhile isSpaceC).reverse.dropWhile isSpaceC).reverse

/-- Does `s` begin with `p`?  (`leadsWith s p` is Python `s.startswith(p)`.) -/
def leadsWith : Str → Str → Bool
  | _, [] => true
  | [], _ :: _ => false
  | c :: t, d :: u => decide (c = d) && leadsWith t u

/-- Substring test: `containsS s p` is Python `p in s`. -/
def containsS : Str → Str → Bool
  | [], p => p.isEmpty
  | c :: t, p => leadsWith (c :: t) p || containsS t p

/-- Python `s.split(sep)` for a one-character separator: keeps empty pieces. -/
def splitOnCp (sep : Nat) : Str → List Str
  | [] => [[]]
  | c :: t =>
    match splitOnCp sep t with
    | [] => [[]]
    | h :: r => if c = sep then [] :: h :: r else (c :: h) :: r

/-- Maximal runs of characters satisfying `p`, in order. -/
def runsBy (p : Nat → Bool) : Str → List Str
  | [] => []
  | c :: t =>
    if p c then
      match t with
      | [] => [[c]]
      | d :: _ =>
        if p d then
          match runsBy p t with
          | [] => [[c]]
          | h :: rs => (c :: h) :: rs
        else [c] :: runsBy p t
    else runsBy p t

/-- Python `s.split()` with no separator: the maximal runs of non-whitespace. -/
def splitWs (s : Str) : List Str := runsBy (fun c => !isSpaceC c) s

/-- Python `re.findall(r'\b\w+\b', s)`: the maximal word-character runs. -/
def wordRuns (s : Str) : List Str := runsBy isWordC s

/-- Python `re.findall(r'\b[a-zA-Z]+\b', s)`: the maximal word-character runs made
    of letters only (a run touching a digit or underscore has no inner boundary,
    so only all-letter runs match). -/
def alphaRuns (s : Str) : List Str := (wordRuns s).filter (fun w => w.all isAlphaC)

/-- Python `' '.join(parts)`. -/
def joinSp : List Str → Str
  | [] => []
  | [s] => s
  | s :: t :: r => s ++ 32 :: joinSp (t :: r)

/-- First code point of a word (words produced by the split functions are
    nonempty; 0 is a dummy for the empty case). -/
def headOr (s : Str) : Nat :=
  match s with
  | [] => 0
  | c :: _ => c

/-- Python `parts[-1]` with an empty-string dummy for the empty list. -/
def lastOr (l : List Str) : Str :=
  match l.getLast? with
  | some s => s
  | none => []

/-- Index of the last dot of `s`, if any. -/
def lastDotIdx : Str → Option Nat
  | [] => none
  | c :: t =>
    match lastDotIdx t with
    | some i => some (i + 1)
    | none => if c = 46 then some 0 else none

/-- Python `os.path.splitext(name)[0]` for a plain file name: cut at the last dot
    unless every character before it is itself a dot. -/
def splitextBase (s : Str) : Str :=
  match lastDotIdx s with
  | none => s
  | some d => if (s.take d).all (fun c => decide (c = 46)) then s else s.take d

/-- The `replacements` alias table of `clean_industry_name`, in source order. -/
def industryReplacements : List (Str × Str) :=
  [(strL "oil & gas", strL "oil&gas"),
   (strL "oil and gas", strL "oil&gas"),
   (strL "oil&gas", strL "oil&gas"),
   (strL "oil", strL "oil&gas"),
   (strL "food & beverage", strL "food&bev"),
   (strL "food and beverage", strL "food&bev"),
   (strL "food&bev", strL "food&bev"),
   (strL "food", strL "food&bev"),
   (strL "banking & finance", strL "bankingfinance"),
   (strL "banking and finance", strL "bankingfinance"),
   (strL "banking", strL "bankingfinance"),
   (strL "finance", strL "bankingfinance"),
   (strL "consumer products", strL "consumerproducts"),
   (strL "consumer goods", strL "consumerproducts"),
   (strL "it services", strL "itservices"),
   (strL "it service", strL "itservices"),
   (strL "higher education", strL "education"),
   (strL "telecommunications", strL "telecom"),
   (strL "telecommunication", strL "telecom"),
   (strL "public sector", strL "government"),
   (strL "public sector/govt", strL "government"),
   (strL "public sector/finance", strL "government"),
   (strL "automobile", strL "auto"),
   (strL "automotive", strL "auto"),
   (strL "utilities", strL "energy"),
   (strL "utility", strL "energy"),
   (strL "power transmission", strL "energy"),
   (strL "pharma", strL "pharmaceutical"),
   (strL "pharmaceuticals", strL "pharmaceutical")]

/-- First association whose key equals `t` (the loop over `replacements.items()`). -/
def lookupRepl (t : Str) : List (Str × Str) → Option Str
  | [] => none
  | (k, v) :: r => if t = k then some v else lookupRepl t r

/-- Body of `clean_industry_name` after lower-casing and stripping: alias lookup,
    else drop every character outside `[a-z0-9]`. -/
def cleanCore (t : Str) : Str :=
  match lookupRepl t industryReplacements with
  | some v => v
  | none => t.filter isLowAlnumC

/-- Embeds `clean_industry_name` on a string input (a non-string input returns ""
    and is handled at the call sites that can receive one). -/
def cleanIndustryName (s : Str) : Str := cleanCore (stripS (lowerS s))

structure TokenInfo where
  product : Str
  scope : Str
  industry : Str
  company : Str
  allParts : List Str
deriving DecidableEq, Repr

def licenseKw : Str := strL "license"

def licensesKw : Str := strL "licenses"

/-- Embeds `extract_info_from_filename`: split the extension-stripped basename on
    underscores and assign the role of each part by part count. -/
def extractInfo (filename : Str) : TokenInfo :=
  let parts := splitOnCp 95 (splitextBase filename)
  let n := parts.length
  let q : Str × Str × Str × Str :=
    if 4 ≤ n then
      if containsS (lowerS (parts.getD 1 [])) licenseKw
          || containsS (lowerS (parts.getD 1 [])) licensesKw then
        if 3 < n then (parts.getD 0 [], parts.getD 1 [], parts.getD 2 [], parts.getD 3 [])
        else (parts.getD 0 [], parts.getD 1 [], [], [])
      else (parts.getD 0 [], parts.getD 1 [], parts.getD 2 [], parts.getD 3 [])
    else if 3 ≤ n then (parts.getD 0 [], [], parts.getD 1 [], parts.getD 2 [])
    else if n = 2 then (parts.getD 0 [], [], [], parts.getD 1 [])
    else ([], [], [], [])
  { product := q.1
    scope := q.2.1
    industry := cleanIndustryName q.2.2.1
    company := if 1 < n ∧ q.2.2.2 = [] then lastOr parts else q.2.2.2
    allParts := parts }

/- ----------------- the candidate scorer (find_matching_company) -----------------
   One Record's four text cells; `none` models a NaN cell, `some s` a string cell.
   Each signal below embeds one `match_score +=` site of the source, in order. -/

structure RecFields where
  companyName : Option Str
  industry : Option Str
  description : Option Str
  scope : Option Str
deriving DecidableEq, Repr

def retailKeywords : List Str :=
  [strL "retail", strL "shop", strL "store", strL "market", strL "mart", strL "supermarket"]

/-- Python `' '.join(all_parts).lower()`. -/
def allPartsText (e : TokenInfo) : Str := lowerS (joinSp e.allParts)

def isRetailImage (e : TokenInfo) : Bool :=
  retailKeywords.any (fun k => containsS (allPartsText e) k)

def retailStr : Str := strL "retail"

/-- Retail special case (+0.20), source lines 261-264. -/
def retailSig (e : TokenInfo) (r : RecFields) : ℚ :=
  match r.industry with
  | none => 0
  | some ind => if isRetailImage e && containsS (lowerS ind) retailStr then 0.2 else 0

/-- Normalization used on both company names: `re.sub(r'[^a-zA-Z0-9]', '', s.lower())`. -/
def normAlnum (s : Str) : Str := (lowerS s).filter isAlnumC

/-- The four-rung company-name ladder (the if/elif chain of lines 273-289), on the
    two normalized names: token = `en`, record name = `cn`. -/
def ladderScore (en cn : Str) : ℚ :=
  if lowerS en = lowerS cn then 0.6
  else if containsS cn en then 0.4
  else if 3 ≤ en.length ∧ leadsWith cn en then 0.3
  else if 3 ≤ en.length ∧ containsS cn en then 0.2
  else 0

/-- Gate of the company-name block: `pd.notna(row['CompanyName']) and extracted_company`
    yields the record's name when both hold. -/
def companyGate (e : TokenInfo) (r : RecFields) : Option Str :=
  match r.companyName with
  | none => none
  | some cn => if e.company = [] then none else some cn

def ladderSig (e : TokenInfo) (r : RecFields) : ℚ :=
  match companyGate e r with
  | none => 0
  | some cn => ladderScore (normAlnum e.company) (normAlnum cn)

/-- Acronym check (+0.50), lines 291-297: first letters of the whitespace-split
    words (alphabetic ones only), lower-cased. -/
def acronymSig (e : TokenInfo) (r : RecFields) : ℚ :=
  match companyGate e r with
  | none => 0
  | some cn =>
    let ws := splitWs cn
    if 1 < ws.length then
      let acronym := (ws.filter (fun w => isAlphaC (headOr w))).map (fun w => lowerC (headOr w))
      if acronym = lowerS (normAlnum e.company) then 0.5 else 0
    else 0

/-- Abbreviation check (+0.50), lines 299-304: first letters of the alphabetic
    word runs, upper-cased, compared lower-cased with the raw token. -/
def abbrevSig (e : TokenInfo) (r : RecFields) : ℚ :=
  match companyGate e r with
  | none => 0
  | some cn =>
    let abbr := (alphaRuns cn).map (fun w => upperC (headOr w))
    if lowerS abbr = lowerS e.company then 0.5 else 0

/-- Whole-word containment (+0.35), lines 306-313. -/
def wordSig (e : TokenInfo) (r : RecFields) : ℚ :=
  match companyGate e r with
  | none => 0
  | some cn =>
    let cws := wordRuns (lowerS cn)
    if (wordRuns (lowerS e.company)).any (fun w => decide (3 ≤ w.length) && decide (w ∈ cws))
    then 0.35 else 0

/-- Record word inside the token (+0.25), lines 315-321. -/
def recWordSig (e : TokenInfo) (r : RecFields) : ℚ :=
  match companyGate e r with
  | none => 0
  | some cn =>
    if (splitWs (lowerS cn)).any (fun w => decide (4 ≤ w.length) && containsS (lowerS e.company) w)
    then 0.25 else 0

/-- Industry matching (+0.30 exact / +0.20 partial), lines 323-333. -/
def industrySig (e : TokenInfo) (r : RecFields) : ℚ :=
  match r.industry with
  | none => 0
  | some ind =>
    if e.industry = [] then 0
    else
      let si := cleanIndustryName ind
      if si = e.industry then 0.3
      else if containsS si e.industry || containsS e.industry si then 0.2
      else 0

/-- License matching against the description (+0.30), lines 335-340. -/
def licenseSig (e : TokenInfo) (r : RecFields) : ℚ :=
  match r.description with
  | none => 0
  | some d =>
    if containsS (allPartsText e) licenseKw && containsS (lowerS d) licenseKw then 0.3 else 0

/-- Scope matching (+0.20), lines 342-348. -/
def scopeSig (e : TokenInfo) (r : RecFields) : ℚ :=
  match r.scope with
  | none => 0
  | some sc =>
    if e.scope = [] then 0
    else if containsS (lowerS sc) (lowerS e.scope) then 0.2 else 0

/-- Product in the description (+0.20), lines 350-356. -/
def productSig (e : TokenInfo) (r : RecFields) : ℚ :=
  match r.description with
  | none => 0
  | some d =>
    if e.product = [] then 0
    else if containsS (lowerS d) (lowerS e.product) then 0.2 else 0

/-- Any filename part of length at least 3 in the description (+0.15), lines 358-367. -/
def descPartSig (e : TokenInfo) (r : RecFields) : ℚ :=
  match r.description with
  | none => 0
  | some d =>
    if e.allParts.any (fun p => decide (3 ≤ p.length) && containsS (lowerS d) (lowerS p))
    then 0.15 else 0

/-- Company token inside the scope (+0.25), lines 369-374 (note: fires for an
    empty token too, as the empty string is a Python substring of everything). -/
def companyInScopeSig (e : TokenInfo) (r : RecFields) : ℚ :=
  match r.scope with
  | none => 0
  | some sc => if containsS (lowerS sc) (lowerS e.company) then 0.25 else 0

/-- Any filename part of length at least 3 in the scope (+0.15), lines 376-381. -/
def scopePartSig (e : TokenInfo) (r : RecFields) : ℚ :=
  match r.scope with
  | none => 0
  | some sc =>
    if e.allParts.any (fun p => decide (3 ≤ p.length) && containsS (lowerS sc) (lowerS p))
    then 0.15 else 0

/-- The weight each signal of `find_matching_company` adds, in the source's
    evaluation order (a zero entry means the signal did not fire). -/
def signalSteps (e : TokenInfo) (r : RecFields) : List ℚ :=
  [retailSig e r, ladderSig e r, acronymSig e r, abbrevSig e r, wordSig e r,
   recWordSig e r, industrySig e r, licenseSig e r, scopeSig e r, productSig e r,
   descPartSig e r, companyInScopeSig e r, scopePartSig e r]

/-- The accumulated `match_score` of one record. -/
def matchScore (e : TokenInfo) (r : RecFields) : ℚ := (signalSteps e r).sum

/-- Sum of every signal outside the company-name ladder. -/
def nonLadderScore (e : TokenInfo) (r : RecFields) : ℚ :=
  retailSig e r + acronymSig e r + abbrevSig e r + wordSig e r + recWordSig e r +
  industrySig e r + licenseSig e r + scopeSig e r + productSig e r +
  descPartSig e r + companyInScopeSig e r + scopePartSig e r

/-- The ladder as an explicit ordered (condition, weight) list. -/
def ladderRungs (en cn : Str) : List (Bool × ℚ) :=
  [(lowerS en == lowerS cn, 0.6),
   (containsS cn en, 0.4),
   (decide (3 ≤ en.length) && leadsWith cn en, 0.3),
   (decide (3 ≤ en.length) && containsS cn en, 0.2)]

/-- Top-down, first-match-wins evaluation of a (condition, weight) list. -/
def firstHit : List (Bool × ℚ) → ℚ
  | [] => 0
  | (b, w) :: t => if b then w else firstHit t

/- ----------------- ranking and selection ----------------- -/

def scoreThreshold : ℚ := 0.35

inductive Strength where
  | low
  | medium
  | high
deriving DecidableEq, Repr

/-- Band assignment of lines 385-389. -/
def strengthOf (s : ℚ) : Strength :=
  if 0.7 ≤ s then .high else if 0.5 ≤ s then .medium else .low

structure Candidate where
  idx : Nat
  score : ℚ
  strength : Strength
deriving Repr

/-- The retained candidates in record order, indices starting at `n`
    (the loop of lines 257-398 with the threshold filter of line 384). -/
def candidatesFrom (e : TokenInfo) : Nat → List RecFields → List Candidate
  | _, [] => []
  | n, r :: rs =>
    let s := matchScore e r
    if scoreThreshold ≤ s then
      { idx := n, score := s, strength := strengthOf s } :: candidatesFrom e (n + 1) rs
    else candidatesFrom e (n + 1) rs

/-- Stable insertion into a list sorted by descending score: an element moves past
    strictly greater scores only, so equal scores keep their original order,
    like Python's stable `list.sort(key=..., reverse=True)` of line 401. -/
def insertCand (c : Candidate) : List Candidate → List Candidate
  | [] => [c]
  | d :: t => if c.score < d.score then d :: insertCand c t else c :: d :: t

def sortCands (l : List Candidate) : List Candidate := l.foldr insertCand []

/-- Embeds `find_matching_company`: score every record, keep those at or above the
    threshold, sort by score descending (stable). -/
def findMatchingCompany (e : TokenInfo) (rs : List RecFields) : List Candidate :=
  sortCands (candidatesFrom e 0 rs)

/- ----------------- the assignment loop (match_images_to_companies) ----------------- -/

structure FileItem where
  name : Str
  url : Str

structure RecState where
  fields : RecFields
  assignedUrl : Str

def setUrl : List RecState → Nat → Str → List RecState
  | [], _, _ => []
  | r :: t, 0, u => { r with assignedUrl := u } :: t
  | r :: t, i + 1, u => r :: setUrl t i u

/-- Index of the winning record for one token tuple: the head of the sorted
    candidate list (line 456), if any. -/
def winnerIdx (e : TokenInfo) (rs : List RecFields) : Option Nat :=
  (findMatchingCompany e rs).head?.map (·.idx)

/-- One iteration of the loop of lines 441-468: extract, match, and assign the
    file's url to the best-matching record, unconditionally overwriting. -/
def processItem (st : List RecState) (it : FileItem) : List RecState :=
  match winnerIdx (extractInfo it.name) (st.map (·.fields)) with
  | none => st
  | some i => setUrl st i it.url

def runMatching (st : List RecState) (items : List FileItem) : List RecState :=
  items.foldl processItem st

def urlAt (st : List RecState) (i : Nat) : Str := (st.map (·.assignedUrl)).getD i []

/-- Url of the last item of `items` whose winner against `rs` is record `i`. -/
def lastWinUrl (rs : List RecFields) : List FileItem → Nat → Option Str
  | [], _ => none
  | it :: its, i =>
    match lastWinUrl rs its i with
    | some u => some u
    | none => if winnerIdx (extractInfo it.name) rs = some i then some it.url else none

/- ----------------- raw cell values, for the malformed-field behaviour -----------------
   A cell as the scoring loop sees it before any conversion: missing (NaN/None),
   a string, or a number. -/

inductive PyVal where
  | null
  | str (s : Str)
  | num (n : Int)
deriving DecidableEq, Repr

/-- Python `pd.notna`. -/
def pyNotna : PyVal → Bool
  | .null => false
  | _ => true

def natDigits (n : Nat) : Str :=
  if n < 10 then [48 + n] else natDigits (n / 10) ++ [48 + n % 10]
termination_by n
decreasing_by exact Nat.div_lt_self (by omega) (by omega)

/-- Python `str(x)` for the cell values modelled here. -/
def pyStr : PyVal → Str
  | .null => strL "nan"
  | .str s => s
  | .num n => if n < 0 then 45 :: natDigits n.natAbs else natDigits n.natAbs

/-- Python `x.lower()`: an attribute call that raises AttributeError unless `x`
    is a string. -/
def pyLowerAttr : PyVal → Except Unit Str
  | .str s => .ok (lowerS s)
  | _ => .error ()

structure RecV where
  companyName : PyVal
  industry : PyVal
  description : PyVal
  scope : PyVal

/-- How the signals after the retail branch see the raw cells: CompanyName,
    Description and Scope go through a `pd.notna` gate and then `str(...)`;
    `clean_industry_name` receives the raw Industry and itself turns a non-string
    into the empty string (line 132). -/
def toFields (r : RecV) : RecFields :=
  { companyName := if pyNotna r.companyName then some (pyStr r.companyName) else none
    industry :=
      match r.industry with
      | .null => none
      | .str s => some s
      | .num _ => some []
    description := if pyNotna r.description then some (pyStr r.description) else none
    scope := if pyNotna r.scope then some (pyStr r.scope) else none }

/-- The score of one record minus the retail special case: every signal after
    line 264. -/
def nonRetailScore (e : TokenInfo) (r : RecFields) : ℚ := ((signalSteps e r).drop 1).sum

/-- The per-record scoring body on raw cell values: the retail branch of line 262
    calls `.lower()` on the raw Industry cell and raises on a non-string value;
    every later cell access is guarded by `str(...)` or by `clean_industry_name`
    and is total. -/
def matchScoreV (e : TokenInfo) (r : RecV) : Except Unit ℚ :=
  match (if isRetailImage e && pyNotna r.industry then
           (pyLowerAttr r.industry).map (fun li => if containsS li retailStr then (0.2 : ℚ) else 0)
         else .ok 0) with
  | .error u => .error u
  | .ok rv => .ok (rv + nonRetailScore e (toFields r))

/- ----------------- case transforms and concrete inputs ----------------- -/

/-- Upper-case every compared token-tuple string except the extracted industry,
    which the tokenizer has already normalized to lower case. -/
def upperTok (e : TokenInfo) : TokenInfo :=
  { product := upperS e.product, scope := upperS e.scope, industry := e.industry,
    company := upperS e.company, allParts := e.allParts.map upperS }

/-- Upper-case every text cell of a record. -/
def upperRec (r : RecFields) : RecFields :=
  { companyName := r.companyName.map upperS, industry := r.industry.map upperS,
    description := r.description.map upperS, scope := r.scope.map upperS }

def tokEx : TokenInfo := { product := [], scope := [], industry := [], company := [], allParts := [] }

def recEx : RecFields := { companyName := none, industry := none, description := none, scope := none }

def fnamePso : Str := strL "SAPS4HANA_Oil&Gas_PSO.jpg"

def tokPso : TokenInfo := extractInfo fnamePso

def recPso : RecFields :=
  { companyName := some (strL "PSO"), industry := some (strL "Oil & Gas"),
    description := none, scope := none }

def tokInd : TokenInfo :=
  { product := [], scope := [], industry := strL "oil&gas", company := [], allParts := [] }

def recInd : RecFields :=
  { companyName := none, industry := some (strL "Oil & Gas"), description := none, scope := none }

def tokRetail : TokenInfo := extractInfo (strL "Qlik_Retail_X.jpg")

def recNumInd : RecV :=
  { companyName := .str (strL "X"), industry := .num 5, description := .null, scope := .null }

def stPso : List RecState := [{ fields := recPso, assignedUrl := [] }]

def itemsPso : List FileItem :=
  [{ name := fnamePso, url := strL "u1" }, { name := fnamePso, url := strL "u2" }]

/- ----------------- basic lemmas ----------------- -/

theorem containsS_of_leadsWith {s p : Str} (h : leadsWith s p = true) : containsS s p = true := by
  cases s with
  | nil =>
    cases p with
    | nil => rfl
    | cons d u => simp [leadsWith] at h
  | cons c t => simp [containsS, h]

theorem lowAl_ranges {c : Nat} (h : isLowAlnumC c = true) :
    (97 ≤ c ∧ c ≤ 122) ∨ (48 ≤ c ∧ c ≤ 57) := by
  simpa [isLowAlnumC, isDigitC, Bool.or_eq_true, decide_eq_true_eq] using h

theorem lowAl_lowerC {c : Nat} (h : isLowAlnumC c = true) : lowerC c = c := by
  have := lowAl_ranges h
  unfold lowerC
  rw [if_neg (by omega)]

theorem lowAl_not_space {c : Nat} (h : isLowAlnumC c = true) : isSpaceC c = false := by
  have := lowAl_ranges h
  simp only [isSpaceC, decide_eq_false_iff_not]
  omega

theorem all_lowerS_id {s : Str} (h : s.all isLowAlnumC = true) : lowerS s = s := by
  induction s with
  | nil => rfl
  | cons c t ih =>
    rw [List.all_cons, Bool.and_eq_true] at h
    simp only [lowerS, List.map_cons]
    rw [lowAl_lowerC h.1]
    exact congrArg _ (ih h.2)

theorem dropWhile_space_id {s : Str} (h : ∀ c ∈ s, isSpaceC c = false) :
    s.dropWhile isSpaceC = s := by
  cases s with
  | nil => rfl
  | cons c t => simp [List.dropWhile_cons, h c (List.mem_cons_self c t)]

theorem all_stripS_id {s : Str} (h : s.all isLowAlnumC = true) : stripS s = s := by
  rw [List.all_eq_true] at h
  have hs : ∀ c ∈ s, isSpaceC c = false := fun c hc => lowAl_not_space (h c hc)
  unfold stripS
  rw [dropWhile_space_id hs, dropWhile_space_id (fun c hc => hs c (List.mem_reverse.mp hc)),
    List.reverse_reverse]

theorem filter_lowAl_all (t : Str) : (t.filter isLowAlnumC).all isLowAlnumC = true := by
  rw [List.all_eq_true]
  intro c hc
  exact (List.mem_filter.mp hc).2

theorem cleanIndustryName_allLow {t : Str} (h : t.all isLowAlnumC = true) :
    cleanIndustryName t = cleanCore t := by
  unfold cleanIndustryName
  rw [all_lowerS_id h, all_stripS_id h]

theorem lookupRepl_val {t v : Str} {l : List (Str × Str)} (h : lookupRepl t l = some v) :
    v ∈ l.map (fun p => p.2) := by
  induction l with
  | nil => simp [lookupRepl] at h
  | cons kv r ih =>
    obtain ⟨k, w⟩ := kv
    by_cases hk : t = k
    · simp only [lookupRepl, if_pos hk, Option.some.injEq] at h
      simp [← h]
    · simp only [lookupRepl, if_neg hk] at h
      simp [ih h]

theorem repl_values_fixed :
    ∀ v ∈ industryReplacements.map (fun p => p.2), cleanIndustryName v = v := by decide

/-- C7 (amended): `clean_industry_name` is not idempotent, but applying it twice is:
    a third application changes nothing. -/
theorem clean_industry_twice_stable (s : Str) :
    cleanIndustryName (cleanIndustryName (cleanIndustryName s)) =
      cleanIndustryName (cleanIndustryName s) := by
  cases h : lookupRepl (stripS (lowerS s)) industryReplacements with
  | some v =>
    have hs : cleanIndustryName s = v := by
      unfold cleanIndustryName cleanCore
      rw [h]
    have hv : cleanIndustryName v = v := repl_values_fixed v (lookupRepl_val h)
    rw [hs, hv, hv]
  | none =>
    have hs : cleanIndustryName s = (stripS (lowerS s)).filter isLowAlnumC := by
      unfold cleanIndustryName cleanCore
      rw [h]
    have hall : ((stripS (lowerS s)).filter isLowAlnumC).all isLowAlnumC = true :=
      filter_lowAl_all _
    have hcu := cleanIndustryName_allLow hall
    cases h2 : lookupRepl ((stripS (lowerS s)).filter isLowAlnumC) industryReplacements with
    | some w =>
      have hu : cleanIndustryName ((stripS (lowerS s)).filter isLowAlnumC) = w := by
        rw [hcu]
        unfold cleanCore
        rw [h2]
      have hw : cleanIndustryName w = w := repl_values_fixed w (lookupRepl_val h2)
      rw [hs, hu, hw]
    | none =>
      have hu : cleanIndustryName ((stripS (lowerS s)).filter isLowAlnumC) =
          (stripS (lowerS s)).filter isLowAlnumC := by
        rw [hcu]
        unfold cleanCore
        rw [h2]
        exact List.filter_eq_self.mpr (fun a ha => (List.mem_filter.mp ha).2)
      rw [hs, hu, hu]

/-- C7 (counterexample): normalizing "oil." gives "oil", which a second pass sends
    to the alias value "oil&gas", so one application is not idempotent. -/
theorem clean_industry_not_idempotent :
    cleanIndustryName (cleanIndustryName (strL "oil.")) ≠ cleanIndustryName (strL "oil.") := by
  decide

/- ----------------- the company-name ladder ----------------- -/

theorem ladderScore_values (en cn : Str) :
    ladderScore en cn = 0 ∨ ladderScore en cn = 0.4 ∨ ladderScore en cn = 0.6 := by
  unfold ladderScore
  split_ifs with h1 h2 h3 h4
  · exact Or.inr (Or.inr rfl)
  · exact Or.inr (Or.inl rfl)
  · exact absurd (containsS_of_leadsWith h3.2) h2
  · exact absurd h4.2 h2
  · exact Or.inl rfl

/-- C10: the two lowest rungs of the company-name ladder are dead code — a
    starts-with hit is a substring hit, and the length-guarded substring rung
    repeats rung two's condition, so the ladder only ever contributes 0, 0.40
    or 0.60 to the score. -/
theorem ladder_low_rungs_unreachable (en cn : Str) (e : TokenInfo) (r : RecFields) :
    (leadsWith cn en = true → containsS cn en = true)
    ∧ (3 ≤ en.length ∧ containsS cn en = true → containsS cn en = true)
    ∧ (ladderScore en cn = 0 ∨ ladderScore en cn = 0.4 ∨ ladderScore en cn = 0.6)
    ∧ (ladderSig e r = 0 ∨ ladderSig e r = 0.4 ∨ ladderSig e r = 0.6) := by
  refine ⟨fun h => containsS_of_leadsWith h, fun h => h.2, ladderScore_values en cn, ?_⟩
  cases hg : companyGate e r with
  | none => simp [ladderSig, hg]
  | some cn' =>
    simp only [ladderSig, hg]
    exact ladderScore_values _ _

/-- Witness for the C10 theorem at a concrete input where the starts-with
    condition holds. -/
theorem ladder_low_rungs_unreachable_witness :
    (leadsWith (strL "abc") (strL "ab") = true → containsS (strL "abc") (strL "ab") = true)
    ∧ (3 ≤ (strL "ab").length ∧ containsS (strL "abc") (strL "ab") = true →
        containsS (strL "abc") (strL "ab") = true)
    ∧ (ladderScore (strL "ab") (strL "abc") = 0 ∨ ladderScore (strL "ab") (strL "abc") = 0.4 ∨
        ladderScore (strL "ab") (strL "abc") = 0.6)
    ∧ (ladderSig tokEx recEx = 0 ∨ ladderSig tokEx recEx = 0.4 ∨ ladderSig tokEx recEx = 0.6) :=
  ladder_low_rungs_unreachable (strL "ab") (strL "abc") tokEx recEx

theorem ladderScore_eq_firstHit (en cn : Str) :
    ladderScore en cn = firstHit (ladderRungs en cn) := by
  simp only [ladderScore, firstHit, ladderRungs, beq_iff_eq, Bool.and_eq_true, decide_eq_true_eq]

/-- C1: the score decomposes as the ladder value plus the independently additive
    remaining signals, and the ladder value is exactly the top-down
    first-match-wins evaluation of the ordered (condition, weight) rung list. -/
theorem ladder_first_match_additive (e : TokenInfo) (r : RecFields) :
    matchScore e r = ladderSig e r + nonLadderScore e r
    ∧ ladderSig e r =
        (match companyGate e r with
          | none => 0
          | some cn => firstHit (ladderRungs (normAlnum e.company) (normAlnum cn))) := by
  constructor
  · simp only [matchScore, signalSteps, nonLadderScore, List.sum_cons, List.sum_nil]
    ring
  · cases hg : companyGate e r with
    | none => simp [ladderSig, hg]
    | some cn =>
      simp only [ladderSig, hg]
      exact ladderScore_eq_firstHit _ _

/- ----------------- non-negativity and monotonicity of the score ----------------- -/

theorem retailSig_nonneg (e : TokenInfo) (r : RecFields) : 0 ≤ retailSig e r := by
  cases h : r.industry <;> simp only [retailSig, h] <;> (try split_ifs) <;> norm_num

theorem ladderSig_nonneg (e : TokenInfo) (r : RecFields) : 0 ≤ ladderSig e r := by
  cases h : companyGate e r with
  | none => simp [ladderSig, h]
  | some cn =>
    simp only [ladderSig, h]
    rcases ladderScore_values (normAlnum e.company) (normAlnum cn) with hv | hv | hv <;>
      rw [hv] <;> norm_num

theorem acronymSig_nonneg (e : TokenInfo) (r : RecFields) : 0 ≤ acronymSig e r := by
  cases h : companyGate e r <;> simp only [acronymSig, h] <;> (try split_ifs) <;> norm_num

theorem abbrevSig_nonneg (e : TokenInfo) (r : RecFields) : 0 ≤ abbrevSig e r := by
  cases h : companyGate e r <;> simp only [abbrevSig, h] <;> (try split_ifs) <;> norm_num

theorem wordSig_nonneg (e : TokenInfo) (r : RecFields) : 0 ≤ wordSig e r := by
  cases h : companyGate e r <;> simp only [wordSig, h] <;> (try split_ifs) <;> norm_num

theorem recWordSig_nonneg (e : TokenInfo) (r : RecFields) : 0 ≤ recWordSig e r := by
  cases h : companyGate e r <;> simp only [recWordSig, h] <;> (try split_ifs) <;> norm_num

theorem industrySig_nonneg (e : TokenInfo) (r : RecFields) : 0 ≤ industrySig e r := by
  cases h : r.industry <;> simp only [industrySig, h] <;> (try split_ifs) <;> norm_num

theorem licenseSig_nonneg (e : TokenInfo) (r : RecFields) : 0 ≤ licenseSig e r := by
  cases h : r.description <;> simp only [licenseSig, h] <;> (try split_ifs) <;> norm_num

theorem scopeSig_nonneg (e : TokenInfo) (r : RecFields) : 0 ≤ scopeSig e r := by
  cases h : r.scope <;> simp only [scopeSig, h] <;> (try split_ifs) <;> norm_num

theorem productSig_nonneg (e : TokenInfo) (r : RecFields) : 0 ≤ productSig e r := by
  cases h : r.description <;> simp only [productSig, h] <;> (try split_ifs) <;> norm_num

theorem descPartSig_nonneg (e : TokenInfo) (r : RecFields) : 0 ≤ descPartSig e r := by
  cases h : r.description <;> simp only [descPartSig, h] <;> (try split_ifs) <;> norm_num

theorem companyInScopeSig_nonneg (e : TokenInfo) (r : RecFields) : 0 ≤ companyInScopeSig e r := by
  cases h : r.scope <;> simp only [companyInScopeSig, h] <;> (try split_ifs) <;> norm_num

theorem scopePartSig_nonneg (e : TokenInfo) (r : RecFields) : 0 ≤ scopePartSig e r := by
  cases h : r.scope <;> simp only [scopePartSig, h] <;> (try split_ifs) <;> norm_num

theorem signalSteps_nonneg (e : TokenInfo) (r : RecFields) : ∀ x ∈ signalSteps e r, 0 ≤ x := by
  intro x hx
  simp only [signalSteps, List.mem_cons, List.not_mem_nil, or_false] at hx
  rcases hx with rfl | rfl | rfl | rfl | rfl | rfl | rfl | rfl | rfl | rfl | rfl | rfl | rfl
  · exact retailSig_nonneg e r
  · exact ladderSig_nonneg e r
  · exact acronymSig_nonneg e r
  · exact abbrevSig_nonneg e r
  · exact wordSig_nonneg e r
  · exact recWordSig_nonneg e r
  · exact industrySig_nonneg e r
  · exact licenseSig_nonneg e r
  · exact scopeSig_nonneg e r
  · exact productSig_nonneg e r
  · exact descPartSig_nonneg e r
  · exact companyInScopeSig_nonneg e r
  · exact scopePartSig_nonneg e r

theorem take_sum_mono {l : List ℚ} (h : ∀ x ∈ l, 0 ≤ x) {i j : Nat} (hij : i ≤ j) :
    (l.take i).sum ≤ (l.take j).sum := by
  have hmin : (l.take j).take i = l.take i := by
    rw [List.take_take, Nat.min_eq_left hij]
  have hsplit : ((l.take j).take i).sum + ((l.take j).drop i).sum = (l.take j).sum := by
    rw [← List.sum_append, List.take_append_drop]
  have hd : 0 ≤ ((l.take j).drop i).sum :=
    List.sum_nonneg fun x hx => h x (List.take_subset _ _ (List.drop_subset _ _ hx))
  rw [← hmin]
  linarith

/-- C3: the score is a sum of per-signal contributions, each of them non-negative,
    so the accumulated score never decreases from one signal to the next and the
    final score is non-negative. -/
theorem score_nonneg_monotone (e : TokenInfo) (r : RecFields) (i j : Nat) (hij : i ≤ j) :
    0 ≤ matchScore e r
    ∧ (∀ x ∈ signalSteps e r, 0 ≤ x)
    ∧ ((signalSteps e r).take i).sum ≤ ((signalSteps e r).take j).sum
    ∧ matchScore e r = ((signalSteps e r).take (signalSteps e r).length).sum := by
  refine ⟨List.sum_nonneg (signalSteps_nonneg e r), signalSteps_nonneg e r,
    take_sum_mono (signalSteps_nonneg e r) hij, ?_⟩
  rw [List.take_length]
  rfl

/-- Witness for the C3 theorem at a concrete input. -/
theorem score_nonneg_monotone_witness :
    (1 ≤ 2)
    ∧ (0 ≤ matchScore tokPso recPso
        ∧ (∀ x ∈ signalSteps tokPso recPso, 0 ≤ x)
        ∧ ((signalSteps tokPso recPso).take 1).sum ≤ ((signalSteps tokPso recPso).take 2).sum
        ∧ matchScore tokPso recPso =
            ((signalSteps tokPso recPso).take (signalSteps tokPso recPso).length).sum) :=
  ⟨by norm_num, score_nonneg_monotone tokPso recPso 1 2 (by norm_num)⟩

/- ----------------- candidate list and stable sort lemmas ----------------- -/

theorem candidatesFrom_cons (e : TokenInfo) (n : Nat) (r : RecFields) (rs : List RecFields) :
    candidatesFrom e n (r :: rs) =
      if scoreThreshold ≤ matchScore e r then
        { idx := n, score := matchScore e r, strength := strengthOf (matchScore e r) } ::
          candidatesFrom e (n + 1) rs
      else candidatesFrom e (n + 1) rs := rfl

theorem mem_candidatesFrom {e : TokenInfo} {c : Candidate} :
    ∀ {n : Nat} {rs : List RecFields},
    c ∈ candidatesFrom e n rs ↔
      ∃ j : Nat, ∃ h : j < rs.length,
        scoreThreshold ≤ matchScore e (rs.get ⟨j, h⟩) ∧
        c = { idx := n + j, score := matchScore e (rs.get ⟨j, h⟩),
              strength := strengthOf (matchScore e (rs.get ⟨j, h⟩)) } := by
  intro n rs
  induction rs generalizing n with
  | nil => simp [candidatesFrom]
  | cons r rs ih =>
    by_cases hr : scoreThreshold ≤ matchScore e r
    · rw [candidatesFrom_cons, if_pos hr]
      rw [List.mem_cons, ih]
      constructor
      · rintro (rfl | ⟨j, hj, hsc, rfl⟩)
        · exact ⟨0, Nat.succ_pos _, hr, rfl⟩
        · exact ⟨j + 1, Nat.succ_lt_succ hj, hsc,
            by rw [show n + 1 + j = n + (j + 1) by omega]; rfl⟩
      · rintro ⟨j, hj, hsc, rfl⟩
        cases j with
        | zero => exact Or.inl rfl
        | succ j =>
          exact Or.inr ⟨j, Nat.lt_of_succ_lt_succ hj, hsc,
            by rw [show n + (j + 1) = n + 1 + j by omega]; rfl⟩
    · rw [candidatesFrom_cons, if_neg hr]
      rw [ih]
      constructor
      · rintro ⟨j, hj, hsc, rfl⟩
        exact ⟨j + 1, Nat.succ_lt_succ hj, hsc,
          by rw [show n + 1 + j = n + (j + 1) by omega]; rfl⟩
      · rintro ⟨j, hj, hsc, rfl⟩
        cases j with
        | zero => exact absurd hsc hr
        | succ j =>
          exact ⟨j, Nat.lt_of_succ_lt_succ hj, hsc,
            by rw [show n + (j + 1) = n + 1 + j by omega]; rfl⟩

theorem candidatesFrom_le_idx {e : TokenInfo} :
    ∀ {n : Nat} {rs : List RecFields} (c : Candidate), c ∈ candidatesFrom e n rs → n ≤ c.idx := by
  intro n rs
  induction rs generalizing n with
  | nil => intro c hc; simp [candidatesFrom] at hc
  | cons r rs ih =>
    intro c hc
    rw [candidatesFrom_cons] at hc
    split_ifs at hc with hr
    · rcases List.mem_cons.mp hc with rfl | h
      · exact le_refl _
      · have := ih c h
        omega
    · have := ih c hc
      omega

theorem candidatesFrom_pairwise (e : TokenInfo) :
    ∀ (n : Nat) (rs : List RecFields),
    (candidatesFrom e n rs).Pairwise (fun a b => a.idx < b.idx) := by
  intro n rs
  induction rs generalizing n with
  | nil => simp [candidatesFrom]
  | cons r rs ih =>
    rw [candidatesFrom_cons]
    split_ifs with hr
    · refine List.Pairwise.cons ?_ (ih (n + 1))
      intro b hb
      have := candidatesFrom_le_idx b hb
      simp only
      omega
    · exact ih (n + 1)

theorem candidatesFrom_eq_nil {e : TokenInfo} :
    ∀ {n : Nat} {rs : List RecFields},
    candidatesFrom e n rs = [] ↔ ∀ r ∈ rs, matchScore e r < scoreThreshold := by
  intro n rs
  induction rs generalizing n with
  | nil => simp [candidatesFrom]
  | cons r rs ih =>
    rw [candidatesFrom_cons]
    split_ifs with hr
    · constructor
      · intro h
        simp at h
      · intro h
        exact absurd (h r (List.mem_cons_self r rs)) (not_lt.mpr hr)
    · rw [ih]
      simp [List.forall_mem_cons, not_le.mp hr]

theorem insertCand_perm (c : Candidate) (l : List Candidate) :
    List.Perm (insertCand c l) (c :: l) := by
  induction l with
  | nil => exact List.Perm.refl _
  | cons d t ih =>
    unfold insertCand
    split_ifs with h
    · exact (ih.cons d).trans (List.Perm.swap c d t)
    · exact List.Perm.refl _

theorem sortCands_perm (l : List Candidate) : List.Perm (sortCands l) l := by
  induction l with
  | nil => exact List.Perm.refl _
  | cons c t ih =>
    simp only [sortCands, List.foldr_cons]
    exact (insertCand_perm c (sortCands t)).trans (ih.cons c)

theorem mem_sortCands {c : Candidate} {l : List Candidate} : c ∈ sortCands l ↔ c ∈ l :=
  (sortCands_perm l).mem_iff

theorem sortCands_eq_nil {l : List Candidate} : sortCands l = [] ↔ l = [] := by
  constructor
  · intro h
    have hp := sortCands_perm l
    rw [h] at hp
    exact hp.symm.eq_nil
  · rintro rfl
    rfl

theorem sortCands_head {l : List Candidate} (hp : l.Pairwise (fun a b => a.idx < b.idx))
    {c : Candidate} {t : List Candidate} (h : sortCands l = c :: t) :
    ∀ d ∈ l, d.score ≤ c.score ∧ (d.score = c.score → c.idx ≤ d.idx) := by
  induction l generalizing c t with
  | nil => simp [sortCands] at h
  | cons a l' ih =>
    rw [show sortCands (a :: l') = insertCand a (sortCands l') by
      simp only [sortCands, List.foldr_cons]] at h
    cases hs : sortCands l' with
    | nil =>
      have hl' : l' = [] := sortCands_eq_nil.mp hs
      rw [hs] at h
      simp only [insertCand, List.cons.injEq] at h
      obtain ⟨rfl, -⟩ := h
      subst hl'
      intro d hd
      rw [List.mem_singleton] at hd
      subst hd
      exact ⟨le_refl _, fun _ => le_refl _⟩
    | cons b t' =>
      rw [hs] at h
      have ihb := ih (List.pairwise_cons.mp hp).2 hs
      simp only [insertCand] at h
      split_ifs at h with hab
      · rw [List.cons.injEq] at h
        obtain ⟨rfl, -⟩ := h
        intro d hd
        rcases List.mem_cons.mp hd with rfl | hd'
        · exact ⟨le_of_lt hab, fun hEq => absurd hEq (ne_of_lt hab)⟩
        · exact ihb d hd'
      · rw [List.cons.injEq] at h
        obtain ⟨rfl, -⟩ := h
        intro d hd
        rcases List.mem_cons.mp hd with rfl | hd'
        · exact ⟨le_refl _, fun _ => le_refl _⟩
        · have h1 : d.score ≤ b.score := (ihb d hd').1
          have h2 : b.score ≤ a.score := not_lt.mp hab
          refine ⟨le_trans h1 h2, fun _ => ?_⟩
          have := (List.pairwise_cons.mp hp).1 d hd'
          omega

/-- C4: a record yields a retained candidate exactly when its score reaches the
    0.35 threshold (so 0.35 itself is retained and 0.349999 is not), and every
    retained candidate is banded high at 0.70, medium at 0.50, low below. -/
theorem threshold_and_bands (e : TokenInfo) (rs : List RecFields) (i : Nat)
    (h : i < rs.length) :
    ((∃ c ∈ findMatchingCompany e rs, c.idx = i) ↔
        scoreThreshold ≤ matchScore e (rs.get ⟨i, h⟩))
    ∧ (∀ c ∈ findMatchingCompany e rs,
        c.strength = if 0.7 ≤ c.score then .high else if 0.5 ≤ c.score then .medium else .low)
    ∧ scoreThreshold ≤ (0.35 : ℚ) ∧ ¬ scoreThreshold ≤ (0.349999 : ℚ) := by
  refine ⟨⟨?_, ?_⟩, ?_, by norm_num [scoreThreshold], by norm_num [scoreThreshold]⟩
  · rintro ⟨c, hc, hidx⟩
    rw [findMatchingCompany, mem_sortCands] at hc
    obtain ⟨j, hj, hsc, rfl⟩ := mem_candidatesFrom.mp hc
    simp only [Nat.zero_add] at hidx
    subst hidx
    exact hsc
  · intro hsc
    refine ⟨⟨0 + i, matchScore e (rs.get ⟨i, h⟩), strengthOf (matchScore e (rs.get ⟨i, h⟩))⟩, ?_, by simp⟩
    rw [findMatchingCompany, mem_sortCands]
    exact mem_candidatesFrom.mpr ⟨i, h, hsc, rfl⟩
  · intro c hc
    rw [findMatchingCompany, mem_sortCands] at hc
    obtain ⟨j, hj, hsc, rfl⟩ := mem_candidatesFrom.mp hc
    rfl

/-- Witness for the C4 theorem at a concrete one-record table. -/
theorem threshold_and_bands_witness :
    0 < ([recPso] : List RecFields).length ∧
    (((∃ c ∈ findMatchingCompany tokPso [recPso], c.idx = 0) ↔
        scoreThreshold ≤ matchScore tokPso (([recPso] : List RecFields).get ⟨0, Nat.zero_lt_succ 0⟩))
      ∧ (∀ c ∈ findMatchingCompany tokPso [recPso],
          c.strength = if 0.7 ≤ c.score then .high else if 0.5 ≤ c.score then .medium else .low)
      ∧ scoreThreshold ≤ (0.35 : ℚ) ∧ ¬ scoreThreshold ≤ (0.349999 : ℚ)) :=
  ⟨Nat.zero_lt_succ 0, threshold_and_bands tokPso [recPso] 0 (Nat.zero_lt_succ 0)⟩

/-- C5: the returned list is empty exactly when no record reaches the threshold;
    otherwise its head is a retained candidate whose score is maximal, and among
    equal scores it is the one of the earliest-loaded record (stable descending
    sort on the original record order). -/
theorem winner_max_score_earliest (e : TokenInfo) (rs : List RecFields) :
    (findMatchingCompany e rs = [] ↔ ∀ r ∈ rs, matchScore e r < scoreThreshold)
    ∧ (∀ c t, findMatchingCompany e rs = c :: t →
        c ∈ candidatesFrom e 0 rs
        ∧ (∀ d ∈ candidatesFrom e 0 rs,
            d.score ≤ c.score ∧ (d.score = c.score → c.idx ≤ d.idx))) := by
  constructor
  · rw [findMatchingCompany, sortCands_eq_nil]
    exact candidatesFrom_eq_nil
  · intro c t hct
    rw [findMatchingCompany] at hct
    constructor
    · rw [← mem_sortCands, hct]
      exact List.mem_cons_self c t
    · exact sortCands_head (candidatesFrom_pairwise e 0 rs) hct

/-- Witness for the C5 theorem at a concrete one-record table. -/
theorem winner_max_score_earliest_witness :
    (findMatchingCompany tokPso [recPso] = [] ↔
        ∀ r ∈ ([recPso] : List RecFields), matchScore tokPso r < scoreThreshold)
    ∧ (∀ c t, findMatchingCompany tokPso [recPso] = c :: t →
        c ∈ candidatesFrom tokPso 0 [recPso]
        ∧ (∀ d ∈ candidatesFrom tokPso 0 [recPso],
            d.score ≤ c.score ∧ (d.score = c.score → c.idx ≤ d.idx))) :=
  winner_max_score_earliest tokPso [recPso]

/- ----------------- assignment-loop lemmas ----------------- -/

theorem setUrl_fields (st : List RecState) (i : Nat) (u : Str) :
    (setUrl st i u).map (·.fields) = st.map (·.fields) := by
  induction st generalizing i with
  | nil => rfl
  | cons r t ih =>
    cases i with
    | zero => rfl
    | succ i => simp [setUrl, ih]

theorem setUrl_length (st : List RecState) (i : Nat) (u : Str) :
    (setUrl st i u).length = st.length := by
  induction st generalizing i with
  | nil => rfl
  | cons r t ih =>
    cases i with
    | zero => rfl
    | succ i => simp [setUrl, ih]

theorem urlAt_setUrl_self {st : List RecState} {j : Nat} (h : j < st.length) (u : Str) :
    urlAt (setUrl st j u) j = u := by
  induction st generalizing j with
  | nil => simp at h
  | cons r t ih =>
    cases j with
    | zero => rfl
    | succ j => exact ih (Nat.lt_of_succ_lt_succ h)

theorem urlAt_setUrl_other {st : List RecState} {i j : Nat} (hij : i ≠ j) (u : Str) :
    urlAt (setUrl st j u) i = urlAt st i := by
  induction st generalizing i j with
  | nil => rfl
  | cons r t ih =>
    cases j with
    | zero =>
      cases i with
      | zero => exact absurd rfl hij
      | succ i => rfl
    | succ j =>
      cases i with
      | zero => rfl
      | succ i => exact ih (fun hEq => hij (by rw [hEq]))

theorem winnerIdx_lt {e : TokenInfo} {rs : List RecFields} {i : Nat}
    (h : winnerIdx e rs = some i) : i < rs.length := by
  unfold winnerIdx at h
  cases hfm : findMatchingCompany e rs with
  | nil => rw [hfm] at h; simp at h
  | cons c t =>
    rw [hfm] at h
    simp only [List.head?_cons, Option.map_some, Option.some.injEq] at h
    have hc : c ∈ candidatesFrom e 0 rs := by
      rw [← mem_sortCands]
      show c ∈ findMatchingCompany e rs
      rw [hfm]
      exact List.mem_cons_self c t
    obtain ⟨j, hj, -, rfl⟩ := mem_candidatesFrom.mp hc
    simp at h
    omega

theorem processItem_fields (st : List RecState) (it : FileItem) :
    (processItem st it).map (·.fields) = st.map (·.fields) := by
  unfold processItem
  cases hw : winnerIdx (extractInfo it.name) (st.map (·.fields)) with
  | none => rfl
  | some j => exact setUrl_fields st j it.url

theorem processItem_length (st : List RecState) (it : FileItem) :
    (processItem st it).length = st.length := by
  unfold processItem
  cases hw : winnerIdx (extractInfo it.name) (st.map (·.fields)) with
  | none => rfl
  | some j => exact setUrl_length st j it.url

theorem urlAt_runMatching (items : List FileItem) :
    ∀ (st : List RecState) (i : Nat), i < st.length →
    urlAt (runMatching st items) i =
      (lastWinUrl (st.map (·.fields)) items i).getD (urlAt st i) := by
  induction items with
  | nil => intro st i h; rfl
  | cons it its ih =>
    intro st i h
    have hstep : runMatching st (it :: its) = runMatching (processItem st it) its := rfl
    have hlen : i < (processItem st it).length := by rw [processItem_length]; exact h
    rw [hstep, ih (processItem st it) i hlen, processItem_fields]
    cases hl : lastWinUrl (st.map (·.fields)) its i with
    | some u => simp [lastWinUrl, hl]
    | none =>
      simp only [lastWinUrl, hl]
      by_cases hw : winnerIdx (extractInfo it.name) (st.map (·.fields)) = some i
      · rw [if_pos hw]
        simp only [Option.getD_some]
        unfold processItem
        rw [hw]
        exact urlAt_setUrl_self (by simpa using winnerIdx_lt hw) it.url
      · rw [if_neg hw]
        simp only [Option.getD_none]
        unfold processItem
        cases hw2 : winnerIdx (extractInfo it.name) (st.map (·.fields)) with
        | none => rfl
        | some j =>
          have hij : i ≠ j := fun hEq => hw (by rw [hw2, hEq])
          exact urlAt_setUrl_other hij it.url

theorem urlAt_of_all_nil {st : List RecState} (h0 : ∀ r ∈ st, r.assignedUrl = []) (i : Nat) :
    urlAt st i = [] := by
  induction st generalizing i with
  | nil => cases i <;> rfl
  | cons r t ih =>
    cases i with
    | zero => exact h0 r (List.mem_cons_self r t)
    | succ i => exact ih (fun x hx => h0 x (List.mem_cons_of_mem r hx)) i

/-- C6: after the loop runs over all files in order, a record's assigned url is
    the url of the last-processed file that won for that record, and stays at the
    initial empty string if none did; each win overwrites unconditionally. -/
theorem assigned_url_last_win (st : List RecState) (items : List FileItem) (i : Nat)
    (h : i < st.length) (h0 : ∀ r ∈ st, r.assignedUrl = []) :
    urlAt (runMatching st items) i = (lastWinUrl (st.map (·.fields)) items i).getD [] := by
  rw [urlAt_runMatching items st i h, urlAt_of_all_nil h0 i]

/-- Witness for the C6 theorem: two files that both win the single record. -/
theorem assigned_url_last_win_witness :
    0 < stPso.length ∧
    urlAt (runMatching stPso itemsPso) 0 =
      (lastWinUrl (stPso.map (·.fields)) itemsPso 0).getD [] :=
  ⟨Nat.zero_lt_succ 0,
    assigned_url_last_win stPso itemsPso 0 (Nat.zero_lt_succ 0)
      (fun r hr => by rw [List.mem_singleton.mp hr])⟩

/- ----------------- concrete evaluations ----------------- -/

theorem tokPso_eval : tokPso =
    { product := strL "SAPS4HANA", scope := [], industry := strL "oil&gas",
      company := strL "PSO",
      allParts := [strL "SAPS4HANA", strL "Oil&Gas", strL "PSO"] } := by decide

theorem signalSteps_pso :
    signalSteps tokPso recPso = [0, 0.6, 0, 0, 0.35, 0, 0.3, 0, 0, 0, 0, 0, 0] := by
  simp +decide [signalSteps, retailSig, ladderSig, acronymSig, abbrevSig, wordSig,
    recWordSig, industrySig, licenseSig, scopeSig, productSig, descPartSig,
    companyInScopeSig, scopePartSig, companyGate, ladderScore, recPso]

theorem matchScore_pso : matchScore tokPso recPso = 1.25 := by
  rw [matchScore, signalSteps_pso]
  simp [List.sum_cons, List.sum_nil]
  norm_num

theorem strengthOf_pso : strengthOf (1.25 : ℚ) = .high := by
  rw [strengthOf, if_pos (by norm_num)]

theorem findMatchingCompany_pso :
    findMatchingCompany tokPso [recPso] = [⟨0, 1.25, .high⟩] := by
  have hc : candidatesFrom tokPso 0 [recPso] = [⟨0, 1.25, .high⟩] := by
    rw [candidatesFrom_cons, matchScore_pso, if_pos (by norm_num [scoreThreshold]),
      strengthOf_pso]
    rfl
  rw [findMatchingCompany, hc]
  rfl

/-- C2 (counterexample): the total score of "SAPS4HANA_Oil&Gas_PSO.jpg" against
    {CompanyName: "PSO", Industry: "Oil & Gas"} is not 0.9 — the whole-word company
    signal (+0.35) fires in addition to the two contributions the claim lists. -/
theorem scenario_pso_score_not_09 : matchScore tokPso recPso ≠ 0.9 := by
  rw [matchScore_pso]
  norm_num

/-- C2 (amended): scoring "SAPS4HANA_Oil&Gas_PSO.jpg" against the single record
    {CompanyName: "PSO", Industry: "Oil & Gas"} fires exact-company-name (+0.6),
    company-contains-word (+0.35) and exact-industry (+0.3), for a total of 1.25;
    the candidate is in the high band and is selected as the winner. -/
theorem scenario_pso_corrected :
    tokPso =
      { product := strL "SAPS4HANA", scope := [], industry := strL "oil&gas",
        company := strL "PSO",
        allParts := [strL "SAPS4HANA", strL "Oil&Gas", strL "PSO"] }
    ∧ signalSteps tokPso recPso = [0, 0.6, 0, 0, 0.35, 0, 0.3, 0, 0, 0, 0, 0, 0]
    ∧ matchScore tokPso recPso = 1.25
    ∧ strengthOf (1.25 : ℚ) = .high
    ∧ findMatchingCompany tokPso [recPso] = [⟨0, 1.25, .high⟩]
    ∧ winnerIdx tokPso [recPso] = some 0 := by
  refine ⟨tokPso_eval, signalSteps_pso, matchScore_pso, strengthOf_pso,
    findMatchingCompany_pso, ?_⟩
  rw [winnerIdx, findMatchingCompany_pso]
  rfl

/-- C9: on a record whose Industry cell holds the number 5 while the filename
    carries a retail keyword, the scoring body raises (AttributeError on
    `.lower()`) instead of recovering with a safe default. -/
theorem malformed_industry_raises : matchScoreV tokRetail recNumInd = .error () := by rfl

/-- C8 (counterexample): upper-casing the extracted industry token changes the
    score — the scorer compares it verbatim against the normalized record
    industry, so the exact-industry signal (+0.3) no longer fires. -/
theorem industry_token_case_sensitive :
    matchScore { tokInd with industry := upperS tokInd.industry } recInd ≠
      matchScore tokInd recInd := by
  have h1 : signalSteps tokInd recInd = [0, 0, 0, 0, 0, 0, 0.3, 0, 0, 0, 0, 0, 0] := by
    simp +decide [signalSteps, retailSig, ladderSig, acronymSig, abbrevSig, wordSig,
      recWordSig, industrySig, licenseSig, scopeSig, productSig, descPartSig,
      companyInScopeSig, scopePartSig, companyGate, ladderScore, recInd, tokInd]
  have h2 : signalSteps { tokInd with industry := upperS tokInd.industry } recInd =
      [0, 0, 0, 0, 0, 0, 0, 0, 0, 0, 0, 0, 0] := by
    simp +decide [signalSteps, retailSig, ladderSig, acronymSig, abbrevSig, wordSig,
      recWordSig, industrySig, licenseSig, scopeSig, productSig, descPartSig,
      companyInScopeSig, scopePartSig, companyGate, ladderScore, recInd, tokInd]
  rw [matchScore, matchScore, h1, h2]
  simp [List.sum_cons, List.sum_nil]
  norm_num

/- ----------------- case-insensitivity lemmas ----------------- -/

theorem lowerC_upperC (c : Nat) : lowerC (upperC c) = lowerC c := by
  unfold lowerC upperC
  split_ifs <;> omega

theorem upperC_upperC (c : Nat) : upperC (upperC c) = upperC c := by
  unfold upperC
  split_ifs <;> omega

theorem isSpaceC_upperC (c : Nat) : isSpaceC (upperC c) = isSpaceC c := by
  unfold isSpaceC upperC
  split_ifs with h
  · rw [decide_eq_decide]
    omega
  · rfl

theorem isAlphaC_upperC (c : Nat) : isAlphaC (upperC c) = isAlphaC c := by
  unfold isAlphaC upperC
  split_ifs with h
  · rw [decide_eq_decide]
    omega
  · rfl

theorem isDigitC_upperC (c : Nat) : isDigitC (upperC c) = isDigitC c := by
  unfold isDigitC upperC
  split_ifs with h
  · rw [decide_eq_decide]
    omega
  · rfl

theorem isWordC_upperC (c : Nat) : isWordC (upperC c) = isWordC c := by
  unfold isWordC isAlnumC
  rw [isAlphaC_upperC, isDigitC_upperC]
  have : decide (upperC c = 95) = decide (c = 95) := by
    unfold upperC
    split_ifs with h
    · rw [decide_eq_decide]
      omega
    · rfl
  rw [this]

theorem lowerS_upperS (s : Str) : lowerS (upperS s) = lowerS s := by
  induction s with
  | nil => rfl
  | cons c t ih =>
    simp only [lowerS, upperS, List.map_cons] at ih ⊢
    rw [lowerC_upperC]
    exact congrArg _ ih

theorem upperS_nil_iff (s : Str) : upperS s = [] ↔ s = [] := by
  simp [upperS]

theorem length_upperS (s : Str) : (upperS s).length = s.length := by
  simp [upperS]

theorem headOr_upperS (s : Str) : headOr (upperS s) = upperC (headOr s) := by
  cases s with
  | nil => rfl
  | cons c t => rfl

theorem normAlnum_upperS (s : Str) : normAlnum (upperS s) = normAlnum s := by
  unfold normAlnum
  simp only [lowerS_upperS]

theorem cleanIndustryName_upperS (s : Str) :
    cleanIndustryName (upperS s) = cleanIndustryName s := by
  unfold cleanIndustryName
  simp only [lowerS_upperS]

theorem runsBy_single (p : Nat → Bool) (c : Nat) :
    runsBy p [c] = if p c then [[c]] else [] := rfl

theorem runsBy_cons_cons (p : Nat → Bool) (c d : Nat) (u : Str) :
    runsBy p (c :: d :: u) =
      if p c then
        (if p d then
          match runsBy p (d :: u) with
          | [] => [[c]]
          | h :: rs => (c :: h) :: rs
        else [c] :: runsBy p (d :: u))
      else runsBy p (d :: u) := rfl

theorem runsBy_map {p : Nat → Bool} {f : Nat → Nat} (hp : ∀ c, p (f c) = p c) :
    ∀ s : Str, runsBy p (s.map f) = (runsBy p s).map (List.map f) := by
  intro s
  induction s with
  | nil => rfl
  | cons c t ih =>
    cases t with
    | nil =>
      simp only [List.map_cons, List.map_nil, runsBy_single, hp c]
      by_cases hc : p c
      · rw [if_pos hc, if_pos hc]
        rfl
      · rw [if_neg hc, if_neg hc]
        rfl
    | cons d u =>
      simp only [List.map_cons] at ih ⊢
      rw [runsBy_cons_cons, runsBy_cons_cons p c d u, hp c, hp d]
      by_cases hc : p c
      · rw [if_pos hc, if_pos hc]
        by_cases hd : p d
        · rw [if_pos hd, if_pos hd, ih]
          cases hr : runsBy p (d :: u) with
          | nil => rfl
          | cons h rs => rfl
        · rw [if_neg hd, if_neg hd, ih]
          rfl
      · rw [if_neg hc, if_neg hc]
        exact ih

theorem splitWs_upperS (s : Str) : splitWs (upperS s) = (splitWs s).map upperS := by
  unfold splitWs upperS
  exact runsBy_map (fun c => by rw [isSpaceC_upperC]) s

theorem wordRuns_upperS (s : Str) : wordRuns (upperS s) = (wordRuns s).map upperS := by
  unfold wordRuns upperS
  exact runsBy_map isWordC_upperC s

theorem all_isAlphaC_upperS (w : Str) : (upperS w).all isAlphaC = w.all isAlphaC := by
  unfold upperS
  rw [List.all_map]
  congr 1
  funext c
  exact isAlphaC_upperC c

theorem alphaRuns_upperS (s : Str) : alphaRuns (upperS s) = (alphaRuns s).map upperS := by
  unfold alphaRuns
  rw [wordRuns_upperS, List.filter_map]
  congr 1
  congr 1
  funext w
  exact all_isAlphaC_upperS w

theorem joinSp_map_upperS (l : List Str) : joinSp (l.map upperS) = upperS (joinSp l) := by
  induction l with
  | nil => rfl
  | cons s t ih =>
    cases t with
    | nil => rfl
    | cons b r =>
      simp only [List.map_cons] at ih ⊢
      rw [show joinSp (upperS s :: upperS b :: List.map upperS r) =
          upperS s ++ 32 :: joinSp (upperS b :: List.map upperS r) from rfl]
      rw [ih]
      rw [show joinSp (s :: b :: r) = s ++ 32 :: joinSp (b :: r) from rfl]
      simp [upperS, List.map_append, show upperC 32 = 32 from rfl]

theorem allPartsText_upperTok (e : TokenInfo) : allPartsText (upperTok e) = allPartsText e := by
  unfold allPartsText upperTok
  simp only
  rw [joinSp_map_upperS, lowerS_upperS]

theorem isRetailImage_upperTok (e : TokenInfo) : isRetailImage (upperTok e) = isRetailImage e := by
  unfold isRetailImage
  simp only [allPartsText_upperTok]

theorem companyGate_upperTok (e : TokenInfo) (r : RecFields) :
    companyGate (upperTok e) r = companyGate e r := by
  unfold companyGate upperTok
  cases r.companyName with
  | none => rfl
  | some cn =>
    simp only
    by_cases h : e.company = []
    · rw [if_pos h, if_pos (by rw [h]; rfl)]
    · rw [if_neg h, if_neg (fun hu => h ((upperS_nil_iff e.company).mp hu))]

theorem companyGate_upperRec (e : TokenInfo) (r : RecFields) :
    companyGate e (upperRec r) = (companyGate e r).map upperS := by
  unfold companyGate upperRec
  cases r.companyName with
  | none => rfl
  | some cn =>
    simp only [Option.map_some']
    by_cases h : e.company = []
    · rw [if_pos h, if_pos h]
      rfl
    · rw [if_neg h, if_neg h]
      rfl

theorem retailSig_upperTok (e : TokenInfo) (r : RecFields) :
    retailSig (upperTok e) r = retailSig e r := by
  unfold retailSig
  cases r.industry with
  | none => rfl
  | some ind => simp only [isRetailImage_upperTok]

theorem retailSig_upperRec (e : TokenInfo) (r : RecFields) :
    retailSig e (upperRec r) = retailSig e r := by
  unfold retailSig upperRec
  cases r.industry with
  | none => rfl
  | some ind =>
    simp only [Option.map_some']
    simp only [lowerS_upperS]

theorem ladderSig_upperTok (e : TokenInfo) (r : RecFields) :
    ladderSig (upperTok e) r = ladderSig e r := by
  unfold ladderSig
  rw [companyGate_upperTok]
  cases hg : companyGate e r with
  | none => rfl
  | some cn =>
    simp only [upperTok]
    simp only [normAlnum_upperS]

theorem ladderSig_upperRec (e : TokenInfo) (r : RecFields) :
    ladderSig e (upperRec r) = ladderSig e r := by
  unfold ladderSig
  rw [companyGate_upperRec]
  cases hg : companyGate e r with
  | none => rfl
  | some cn =>
    simp only [Option.map_some']
    simp only [normAlnum_upperS]

theorem acronymSig_upperTok (e : TokenInfo) (r : RecFields) :
    acronymSig (upperTok e) r = acronymSig e r := by
  unfold acronymSig
  rw [companyGate_upperTok]
  cases hg : companyGate e r with
  | none => rfl
  | some cn =>
    simp only [upperTok]
    simp only [normAlnum_upperS]

theorem acronymSig_upperRec (e : TokenInfo) (r : RecFields) :
    acronymSig e (upperRec r) = acronymSig e r := by
  unfold acronymSig
  rw [companyGate_upperRec]
  cases hg : companyGate e r with
  | none => rfl
  | some cn =>
    simp only [Option.map_some']
    simp only [splitWs_upperS, List.length_map, List.filter_map, List.map_map]
    have hP : (fun w : Str => isAlphaC (headOr w)) ∘ upperS = fun w : Str => isAlphaC (headOr w) := by
      funext w
      show isAlphaC (headOr (upperS w)) = isAlphaC (headOr w)
      rw [headOr_upperS, isAlphaC_upperC]
    have hQ : (fun w : Str => lowerC (headOr w)) ∘ upperS = fun w : Str => lowerC (headOr w) := by
      funext w
      show lowerC (headOr (upperS w)) = lowerC (headOr w)
      rw [headOr_upperS, lowerC_upperC]
    simp only [hP, hQ]

theorem abbrevSig_upperTok (e : TokenInfo) (r : RecFields) :
    abbrevSig (upperTok e) r = abbrevSig e r := by
  unfold abbrevSig
  rw [companyGate_upperTok]
  cases hg : companyGate e r with
  | none => rfl
  | some cn =>
    simp only [upperTok]
    simp only [lowerS_upperS]

theorem abbrevSig_upperRec (e : TokenInfo) (r : RecFields) :
    abbrevSig e (upperRec r) = abbrevSig e r := by
  unfold abbrevSig
  rw [companyGate_upperRec]
  cases hg : companyGate e r with
  | none => rfl
  | some cn =>
    simp only [Option.map_some']
    simp only [alphaRuns_upperS, List.map_map]
    have hQ : (fun w : Str => upperC (headOr w)) ∘ upperS = fun w : Str => upperC (headOr w) := by
      funext w
      show upperC (headOr (upperS w)) = upperC (headOr w)
      rw [headOr_upperS, upperC_upperC]
    simp only [hQ]

theorem wordSig_upperTok (e : TokenInfo) (r : RecFields) :
    wordSig (upperTok e) r = wordSig e r := by
  unfold wordSig
  rw [companyGate_upperTok]
  cases hg : companyGate e r with
  | none => rfl
  | some cn =>
    simp only [upperTok]
    simp only [lowerS_upperS]

theorem wordSig_upperRec (e : TokenInfo) (r : RecFields) :
    wordSig e (upperRec r) = wordSig e r := by
  unfold wordSig
  rw [companyGate_upperRec]
  cases hg : companyGate e r with
  | none => rfl
  | some cn =>
    simp only [Option.map_some']
    simp only [lowerS_upperS]

theorem recWordSig_upperTok (e : TokenInfo) (r : RecFields) :
    recWordSig (upperTok e) r = recWordSig e r := by
  unfold recWordSig
  rw [companyGate_upperTok]
  cases hg : companyGate e r with
  | none => rfl
  | some cn =>
    simp only [upperTok]
    simp only [lowerS_upperS]

theorem recWordSig_upperRec (e : TokenInfo) (r : RecFields) :
    recWordSig e (upperRec r) = recWordSig e r := by
  unfold recWordSig
  rw [companyGate_upperRec]
  cases hg : companyGate e r with
  | none => rfl
  | some cn =>
    simp only [Option.map_some']
    simp only [lowerS_upperS]

theorem industrySig_upperTok (e : TokenInfo) (r : RecFields) :
    industrySig (upperTok e) r = industrySig e r := rfl

theorem industrySig_upperRec (e : TokenInfo) (r : RecFields) :
    industrySig e (upperRec r) = industrySig e r := by
  unfold industrySig upperRec
  cases r.industry with
  | none => rfl
  | some ind =>
    simp only [Option.map_some']
    simp only [cleanIndustryName_upperS]

theorem licenseSig_upperTok (e : TokenInfo) (r : RecFields) :
    licenseSig (upperTok e) r = licenseSig e r := by
  unfold licenseSig
  cases r.description with
  | none => rfl
  | some d => simp only [allPartsText_upperTok]

theorem licenseSig_upperRec (e : TokenInfo) (r : RecFields) :
    licenseSig e (upperRec r) = licenseSig e r := by
  unfold licenseSig upperRec
  cases r.description with
  | none => rfl
  | some d =>
    simp only [Option.map_some']
    simp only [lowerS_upperS]

theorem scopeSig_upperTok (e : TokenInfo) (r : RecFields) :
    scopeSig (upperTok e) r = scopeSig e r := by
  unfold scopeSig
  cases r.scope with
  | none => rfl
  | some sc =>
    simp only [upperTok]
    by_cases h : e.scope = []
    · rw [if_pos h, if_pos (by rw [h]; rfl)]
    · rw [if_neg h, if_neg (fun hu => h ((upperS_nil_iff e.scope).mp hu))]
      simp only [lowerS_upperS]

theorem scopeSig_upperRec (e : TokenInfo) (r : RecFields) :
    scopeSig e (upperRec r) = scopeSig e r := by
  unfold scopeSig upperRec
  cases r.scope with
  | none => rfl
  | some sc =>
    simp only [Option.map_some']
    simp only [lowerS_upperS]

theorem productSig_upperTok (e : TokenInfo) (r : RecFields) :
    productSig (upperTok e) r = productSig e r := by
  unfold productSig
  cases r.description with
  | none => rfl
  | some d =>
    simp only [upperTok]
    by_cases h : e.product = []
    · rw [if_pos h, if_pos (by rw [h]; rfl)]
    · rw [if_neg h, if_neg (fun hu => h ((upperS_nil_iff e.product).mp hu))]
      simp only [lowerS_upperS]

theorem productSig_upperRec (e : TokenInfo) (r : RecFields) :
    productSig e (upperRec r) = productSig e r := by
  unfold productSig upperRec
  cases r.description with
  | none => rfl
  | some d =>
    simp only [Option.map_some']
    simp only [lowerS_upperS]

theorem any_part_upper (d : Str) (parts : List Str) :
    ((parts.map upperS).any fun p => decide (3 ≤ p.length) && containsS (lowerS d) (lowerS p)) =
      (parts.any fun p => decide (3 ≤ p.length) && containsS (lowerS d) (lowerS p)) := by
  rw [List.any_map]
  congr 1
  funext p
  show (decide (3 ≤ (upperS p).length) && containsS (lowerS d) (lowerS (upperS p))) =
    (decide (3 ≤ p.length) && containsS (lowerS d) (lowerS p))
  rw [length_upperS, lowerS_upperS]

theorem descPartSig_upperTok (e : TokenInfo) (r : RecFields) :
    descPartSig (upperTok e) r = descPartSig e r := by
  unfold descPartSig
  cases r.description with
  | none => rfl
  | some d =>
    simp only [upperTok]
    simp only [any_part_upper]

theorem descPartSig_upperRec (e : TokenInfo) (r : RecFields) :
    descPartSig e (upperRec r) = descPartSig e r := by
  unfold descPartSig upperRec
  cases r.description with
  | none => rfl
  | some d =>
    simp only [Option.map_some']
    simp only [lowerS_upperS]

theorem companyInScopeSig_upperTok (e : TokenInfo) (r : RecFields) :
    companyInScopeSig (upperTok e) r = companyInScopeSig e r := by
  unfold companyInScopeSig
  cases r.scope with
  | none => rfl
  | some sc =>
    simp only [upperTok]
    simp only [lowerS_upperS]

theorem companyInScopeSig_upperRec (e : TokenInfo) (r : RecFields) :
    companyInScopeSig e (upperRec r) = companyInScopeSig e r := by
  unfold companyInScopeSig upperRec
  cases r.scope with
  | none => rfl
  | some sc =>
    simp only [Option.map_some']
    simp only [lowerS_upperS]

theorem scopePartSig_upperTok (e : TokenInfo) (r : RecFields) :
    scopePartSig (upperTok e) r = scopePartSig e r := by
  unfold scopePartSig
  cases r.scope with
  | none => rfl
  | some sc =>
    simp only [upperTok]
    simp only [any_part_upper]

theorem scopePartSig_upperRec (e : TokenInfo) (r : RecFields) :
    scopePartSig e (upperRec r) = scopePartSig e r := by
  unfold scopePartSig upperRec
  cases r.scope with
  | none => rfl
  | some sc =>
    simp only [Option.map_some']
    simp only [lowerS_upperS]

theorem matchScore_upperTok (e : TokenInfo) (r : RecFields) :
    matchScore (upperTok e) r = matchScore e r := by
  unfold matchScore signalSteps
  rw [retailSig_upperTok, ladderSig_upperTok, acronymSig_upperTok, abbrevSig_upperTok,
    wordSig_upperTok, recWordSig_upperTok, industrySig_upperTok, licenseSig_upperTok,
    scopeSig_upperTok, productSig_upperTok, descPartSig_upperTok,
    companyInScopeSig_upperTok, scopePartSig_upperTok]

theorem matchScore_upperRec (e : TokenInfo) (r : RecFields) :
    matchScore e (upperRec r) = matchScore e r := by
  unfold matchScore signalSteps
  rw [retailSig_upperRec, ladderSig_upperRec, acronymSig_upperRec, abbrevSig_upperRec,
    wordSig_upperRec, recWordSig_upperRec, industrySig_upperRec, licenseSig_upperRec,
    scopeSig_upperRec, productSig_upperRec, descPartSig_upperRec,
    companyInScopeSig_upperRec, scopePartSig_upperRec]

/-- C8 (amended): the scorer is case-insensitive in every compared string except
    the extracted industry token (which reaches it already normalized):
    upper-casing the other token-tuple strings, the record's cells, or both
    leaves the score unchanged. -/
theorem scorer_case_insensitive_outside_industry_token (e : TokenInfo) (r : RecFields) :
    matchScore (upperTok e) r = matchScore e r
    ∧ matchScore e (upperRec r) = matchScore e r
    ∧ matchScore (upperTok e) (upperRec r) = matchScore e r :=
  ⟨matchScore_upperTok e r, matchScore_upperRec e r,
    (matchScore_upperRec (upperTok e) r).trans (matchScore_upperTok e r)⟩
